import Mathlib

/-!
Verification development for `pyro/contrib/funsor/infer/trace_elbo.py`
(`Trace_ELBO.differentiable_loss`).  Factors are embedded shallowly as
log-space real-valued functions over assignments of natural-number values to
named variables; each variable has a finite domain given by a `card` map.
The funsor library operations the method calls (`_partition`,
`partial_sum_product`, `sum_product`, `adjoint`, `Integrate`) are not part of
the repository's sources; they are modelled from the specification's
component contracts, as noted on each definition.
-/

namespace PyroFunsor

abbrev Var := String

abbrev Asg := Var → ℕ

/-- A funsor in log space: its free-variable set (`inputs` in funsor) and its
value on every assignment. -/
structure Factor where
  inputs : Finset Var
  val : Asg → ℝ

/-- Point update of an assignment. -/
def setAsg (σ : Asg) (v : Var) (i : ℕ) : Asg := fun w => if w = v then i else σ w

/-- Sum of `g` over all joint settings of the listed variables, each ranging
over `Finset.range (card v)`. -/
noncomputable def sumAssign (card : Var → ℕ) : List Var → (Asg → ℝ) → Asg → ℝ
  | [], g, σ => g σ
  | v :: vs, g, σ => (Finset.range (card v)).sum (fun i => sumAssign card vs g (setAsg σ v i))

/-- Union of the input sets of a list of factors. -/
def inputsUnion (fs : List Factor) : Finset Var := fs.foldl (fun a f => a ∪ f.inputs) ∅

/-- Combining factors with funsor's `ops.add`: log densities add pointwise. -/
noncomputable def combine (fs : List Factor) : Factor :=
  ⟨inputsUnion fs, fun σ => (fs.map (fun f => f.val σ)).sum⟩

/-- Reduction with `ops.logaddexp` over a set of variables: log-sum-exp of the
function over the eliminated variables' joint domain. -/
noncomputable def lseReduce (card : Var → ℕ) (V : Finset Var) (g : Asg → ℝ) : Asg → ℝ :=
  fun σ => Real.log (sumAssign card V.toList (fun τ => Real.exp (g τ)) σ)

/-- Reduction with `ops.add` over a set of variables (plate reduction in log
space). -/
noncomputable def addReduce (card : Var → ℕ) (V : Finset Var) (g : Asg → ℝ) : Asg → ℝ :=
  fun σ => sumAssign card V.toList g σ

/-- Reduction with `ops.mean` over a set of variables (Monte Carlo particle
averaging). -/
noncomputable def meanReduce (card : Var → ℕ) (V : Finset Var) (g : Asg → ℝ) : Asg → ℝ :=
  fun σ => sumAssign card V.toList g σ / ((V.toList.map card).prod : ℝ)

/-- Modelled from the spec: the Forward Contraction engine
(`funsor.sum_product.sum_product`, spec section 4.5) — a single sum-product
contraction with combine `ops.add` and reduce `ops.logaddexp`; eliminated
non-plate variables are log-sum-exp-reduced and eliminated plate variables are
add-reduced, each restricted to the variables the combined factor actually
has. -/
noncomputable def sum_product (card : Var → ℕ) (fs : List Factor)
    (plates eliminate : Finset Var) : Factor :=
  let c := combine fs
  ⟨c.inputs \ eliminate,
    addReduce card ((eliminate ∩ plates) ∩ c.inputs)
      (lseReduce card ((eliminate \ plates) ∩ c.inputs) c.val)⟩

/-- Modelled from the spec: the Partial Elimination engine
(`funsor.sum_product.partial_sum_product`, spec section 4.3) — factors not
touching the eliminated variables pass through unchanged, and the factors that
do touch them are contracted together by one sum-product elimination. -/
noncomputable def partial_sum_product (card : Var → ℕ) (fs : List Factor)
    (plates eliminate : Finset Var) : List Factor :=
  let p := fs.partition (fun f => decide ((f.inputs ∩ eliminate) ≠ ∅))
  p.2 ++ (if p.1.isEmpty then [] else [sum_product card p.1 plates eliminate])

/-- One step of the Partitioner: fold a factor whose elimination variables are
`fv` into the running group list, merging every group sharing one of those
variables. -/
def addFactorToGroups (groups : List (List Factor × Finset Var)) (f : Factor)
    (fv : Finset Var) : List (List Factor × Finset Var) :=
  let p := groups.partition (fun g => decide ((g.2 ∩ fv) ≠ ∅))
  p.2 ++ [((p.1.map Prod.fst).flatten ++ [f], p.1.foldl (fun a g => a ∪ g.2) fv)]

/-- Modelled from the spec: the Partitioner (`funsor.sum_product._partition`,
spec section 4.2) — groups factors into maximal connected components sharing
elimination variables, each component paired with its elimination-variable
set. -/
def _partition (fs : List Factor) (sumVars : Finset Var) :
    List (List Factor × Finset Var) :=
  fs.foldl (fun groups f => addFactorToGroups groups f (f.inputs ∩ sumVars)) []

/-- Modelled from the spec: the exact-expectation operator `funsor.Integrate`
(spec section 4.7) — the expectation of `f` under the log measure `m`,
summed over the reduced variables. -/
noncomputable def Integrate (card : Var → ℕ) (m f : Factor) (V : Finset Var) : Factor :=
  ⟨(m.inputs ∪ f.inputs) \ V,
    addReduce card V (fun σ => Real.exp (m.val σ) * f.val σ)⟩

/-- Modelled from the spec: the Adjoint engine (`funsor.adjoint.adjoint`, spec
section 4.6) — for each probe, the marginal over the probe's signature is the
aggregate incoming message (the contraction of all factors over every
eliminated variable outside the probe's signature) divided by the global
normalizer (subtracted, in log space).  The map is keyed by the probe's
signature, as the probes themselves are keyed in the target map. -/
noncomputable def adjoint (card : Var → ℕ) (fs : List Factor)
    (plates eliminate : Finset Var) (probes : List (Finset Var × Factor)) :
    List (Finset Var × Factor) :=
  probes.map (fun p =>
    (p.1, ⟨p.2.inputs,
      fun σ => (sum_product card fs plates (eliminate \ p.2.inputs)).val σ
        - (sum_product card fs plates eliminate).val σ⟩))

/-- The failures a bound evaluation can abort with. -/
inductive LossError where
  | noMarginal : LossError
  | unsupportedParticleDim : LossError

/-- Lookup of a probe's marginal in the adjoint's output; a probe with no
corresponding node fails with a "no marginal available" error. -/
def lookupMarginal (ms : List (Finset Var × Factor)) (sig : Finset Var) :
    Except LossError Factor :=
  match ms.find? (fun p => decide (p.1 = sig)) with
  | some p => Except.ok p.2
  | none => Except.error LossError.noMarginal

/-- The Trace Term Bundle `terms_from_trace` produces for the model trace and
for the guide trace (the extractor itself lives in `traceenum_elbo.py`, outside
these sources; the bundle's shape follows the spec's data model, section 3). -/
structure TermBundle where
  log_factors : List Factor
  log_measures : List Factor
  measure_vars : Finset Var
  plate_vars : Finset Var
  scale : ℝ

/-- The ELBO's `max_plate_nesting` attribute: `None`, `float("inf")` or a
finite number. -/
inductive PlateNesting where
  | none : PlateNesting
  | infinite : PlateNesting
  | finite : ℕ → PlateNesting

/-- The vectorized particle plate the `plate(...)` context manager would
introduce: its name, size and (negative) dimension. -/
structure ParticlePlate where
  name : Var
  size : ℕ
  dim : ℤ

/-- Lines 23-27: `enum` receives `first_available_dim = -max_plate_nesting - 1`
when `max_plate_nesting` is neither `None` nor infinite, else `None`. -/
def enumFirstAvailableDim (mpn : PlateNesting) : Option ℤ :=
  match mpn with
  | PlateNesting.finite n => some (-(n : ℤ) - 1)
  | _ => Option.none

/-- Lines 28-32: the `plate(name="num_particles_vectorized", size=num_particles,
dim=-max_plate_nesting)` context manager is entered only when
`num_particles > 1`; in that case `-max_plate_nesting` must be a (negative)
integer, which fails for a `None` or infinite `max_plate_nesting`. -/
def particlePlateSetup (num_particles : ℕ) (mpn : PlateNesting) :
    Except LossError (Option ParticlePlate) :=
  if 1 < num_particles then
    match mpn with
    | PlateNesting.finite n =>
        Except.ok (some ⟨"num_particles_vectorized", num_particles, -(n : ℤ)⟩)
    | _ => Except.error LossError.unsupportedParticleDim
  else Except.ok Option.none

/-- Lines 39-43: the particle variable set. -/
def particle_var (num_particles : ℕ) : Finset Var :=
  if 1 < num_particles then {"num_particles_vectorized"} else ∅

/-- Lines 44-46: all plate variables of guide and model, less the particle
plate. -/
def plateVars (model guide : TermBundle) (num_particles : ℕ) : Finset Var :=
  (guide.plate_vars ∪ model.plate_vars) \ particle_var num_particles

/-- Line 48: the model-only (auxiliary) measure variables. -/
def model_measure_vars (model guide : TermBundle) : Finset Var :=
  model.measure_vars \ guide.measure_vars

/-- Lines 51-56: split the model's log factors into those whose inputs meet the
model-only measure variables (to be contracted) and the rest (passed through). -/
def factorSplit (model guide : TermBundle) : List Factor × List Factor :=
  model.log_factors.partition
    (fun f => decide ((model_measure_vars model guide ∩ f.inputs) ≠ ∅))

/-- The union of the inputs of a partition group's factors (lines 63-65). -/
def groupFactorVars (gfs : List Factor) : Finset Var := inputsUnion gfs

/-- Line 66: the model plate variables occurring in the group. -/
def groupPlates (mplates : Finset Var) (gfs : List Factor) : Finset Var :=
  mplates ∩ groupFactorVars gfs

/-- Lines 67-69: the intersection, over the group's factors, of each factor's
inputs restricted to the group's plates (`frozenset.intersection(*...)`; the
groups produced by the partitioner are never empty). -/
def outermostPlates (gp : Finset Var) : List Factor → Finset Var
  | [] => ∅
  | f :: rest => rest.foldl (fun a g => a ∩ (g.inputs ∩ gp)) (f.inputs ∩ gp)

/-- Line 70: the group's locally eliminable plates. -/
def elimPlates (gp : Finset Var) (gfs : List Factor) : Finset Var :=
  gp \ outermostPlates gp gfs

/-- Line 78: `model_terms["scale"] * f`, funsor multiplication of the log
factor by the scale. -/
noncomputable def scaleMul (s : ℝ) (f : Factor) : Factor :=
  ⟨f.inputs, fun σ => s * f.val σ⟩

/-- Lines 71-77: the partial sum-product elimination of one partition group. -/
noncomputable def groupContract (card : Var → ℕ) (mplates : Finset Var)
    (gfs : List Factor) (gvars : Finset Var) : List Factor :=
  let gp := groupPlates mplates gfs
  partial_sum_product card gfs gp (gvars ∪ elimPlates gp gfs)

/-- Lines 57-78: partition the model's log measures together with the
contracted factors over the model's measure variables, eliminate each group,
and multiply every resulting factor by the bundle's scale. -/
noncomputable def contractedCosts (card : Var → ℕ) (model guide : TermBundle) :
    List Factor :=
  ((_partition (model.log_measures ++ (factorSplit model guide).1)
      model.measure_vars).map
    (fun g => (groupContract card model.plate_vars g.1 g.2).map
      (scaleMul model.scale))).flatten

/-- Line 82: funsor negation `-f` of a guide log factor. -/
noncomputable def negF (f : Factor) : Factor := ⟨f.inputs, fun σ => -(f.val σ)⟩

/-- Lines 80-82: the accumulated cost terms — contracted model costs, then
uncontracted model costs, then negated guide costs. -/
noncomputable def costsOf (card : Var → ℕ) (model guide : TermBundle) :
    List Factor :=
  contractedCosts card model guide ++ (factorSplit model guide).2
    ++ guide.log_factors.map negF

/-- Lines 86-97: the target/probe map — one zero-valued `Constant` factor per
distinct input-variable signature among the cost terms, keyed by signature. -/
def buildTargets (costs : List Factor) : List (Finset Var × Factor) :=
  costs.foldl
    (fun ts c =>
      if (ts.find? (fun p => decide (p.1 = c.inputs))).isSome then ts
      else ts ++ [(c.inputs, ⟨c.inputs, fun _ => 0⟩)])
    []

/-- Lines 99-106: the forward logZ contraction over the guide's log measures
and the probes (`apply_optimizer` preserves the value and is the identity in
this embedding). -/
noncomputable def logzqOf (card : Var → ℕ) (model guide : TermBundle)
    (num_particles : ℕ) : Factor :=
  sum_product card
    (guide.log_measures ++ (buildTargets (costsOf card model guide)).map Prod.snd)
    (plateVars model guide num_particles)
    (plateVars model guide num_particles ∪ guide.measure_vars)

/-- Line 108: the marginal map the adjoint pass produces for the probes of the
forward contraction. -/
noncomputable def marginalsOf (card : Var → ℕ) (model guide : TermBundle)
    (num_particles : ℕ) : List (Finset Var × Factor) :=
  adjoint card
    (guide.log_measures ++ (buildTargets (costsOf card model guide)).map Prod.snd)
    (plateVars model guide num_particles)
    (plateVars model guide num_particles ∪ guide.measure_vars)
    (buildTargets (costsOf card model guide))

/-- Lines 117-125: one cost term's contribution — the exact expectation of the
term under its marginal over the term's remaining measure variables, then
add-reduced over the plate variables the term carries. -/
noncomputable def elboTermVal (card : Var → ℕ) (pv particle : Finset Var)
    (m c : Factor) : Asg → ℝ :=
  let measure_vars := (c.inputs \ pv) \ particle
  addReduce card (pv ∩ c.inputs) (Integrate card m c measure_vars).val

/-- Lines 110-125: the integrator loop — look up each cost's marginal (a
missing probe aborts the evaluation) and accumulate the contributions. -/
noncomputable def integrateAll (card : Var → ℕ) (pv particle : Finset Var)
    (ms : List (Finset Var × Factor)) : List Factor → Except LossError (Asg → ℝ)
  | [] => Except.ok (fun _ => 0)
  | c :: cs =>
    match lookupMarginal ms c.inputs with
    | Except.error e => Except.error e
    | Except.ok m =>
      match integrateAll card pv particle ms cs with
      | Except.error e => Except.error e
      | Except.ok rest =>
          Except.ok (fun σ => elboTermVal card pv particle m c σ + rest σ)

/-- The base assignment at which the final scalar is read off (`to_data`). -/
def baseAsg : Asg := fun _ => 0

/-- Lines 110-129 assembled: integrate all costs, average over the particle
plate, and negate. -/
noncomputable def lossCore (card : Var → ℕ) (num_particles : ℕ)
    (model guide : TermBundle) : Except LossError ℝ :=
  match integrateAll card (plateVars model guide num_particles)
      (particle_var num_particles) (marginalsOf card model guide num_particles)
      (costsOf card model guide) with
  | Except.error e => Except.error e
  | Except.ok elboF =>
      Except.ok (-(meanReduce card (particle_var num_particles) elboF baseAsg))

/-- Lines 22-129: `Trace_ELBO.differentiable_loss` over the two extracted term
bundles. -/
noncomputable def differentiable_loss (card : Var → ℕ) (num_particles : ℕ)
    (mpn : PlateNesting) (model guide : TermBundle) : Except LossError ℝ :=
  match particlePlateSetup num_particles mpn with
  | Except.error e => Except.error e
  | Except.ok _ => lossCore card num_particles model guide

/-- Modelled from the spec: the naive estimator of testable property 1 —
the negation of (sum of model log-factors minus sum of guide log-factors),
each factor summed over the plate variables it carries, averaged over the
particle plate. -/
noncomputable def naiveLoss (card : Var → ℕ) (num_particles : ℕ)
    (model guide : TermBundle) : ℝ :=
  -(meanReduce card (particle_var num_particles)
    (fun σ =>
      (model.log_factors.map (fun f =>
        addReduce card (plateVars model guide num_particles ∩ f.inputs) f.val σ)).sum
      - (guide.log_factors.map (fun f =>
        addReduce card (plateVars model guide num_particles ∩ f.inputs) f.val σ)).sum)
    baseAsg)

lemma sumAssign_congr (card : Var → ℕ) (vs : List Var) (g g' : Asg → ℝ)
    (h : ∀ τ, g τ = g' τ) (σ : Asg) :
    sumAssign card vs g σ = sumAssign card vs g' σ := by
  induction vs generalizing σ with
  | nil => exact h σ
  | cons v vs ih => exact Finset.sum_congr rfl (fun i _ => ih _)

lemma sumAssign_zero (card : Var → ℕ) (vs : List Var) (σ : Asg) :
    sumAssign card vs (fun _ => (0 : ℝ)) σ = 0 := by
  induction vs generalizing σ with
  | nil => rfl
  | cons v vs ih =>
      simp only [sumAssign]
      exact Finset.sum_eq_zero (fun i _ => ih (setAsg σ v i))

lemma sumAssign_neg (card : Var → ℕ) (vs : List Var) (g : Asg → ℝ) (σ : Asg) :
    sumAssign card vs (fun τ => -(g τ)) σ = -(sumAssign card vs g σ) := by
  induction vs generalizing σ with
  | nil => rfl
  | cons v vs ih => simp [sumAssign, ih, Finset.sum_neg_distrib]

lemma combine_append_val (A B : List Factor) (σ : Asg) :
    (combine (A ++ B)).val σ = (combine A).val σ + (combine B).val σ := by
  simp [combine]

lemma inputsUnion_from (fs : List Factor) (X : Finset Var) :
    fs.foldl (fun a f => a ∪ f.inputs) X = X ∪ inputsUnion fs := by
  induction fs generalizing X with
  | nil => simp [inputsUnion]
  | cons f fs ih =>
      rw [inputsUnion, List.foldl_cons, List.foldl_cons, ih, ih (∅ ∪ f.inputs)]
      ext x
      simp only [Finset.mem_union, Finset.not_mem_empty, false_or]
      tauto

lemma inputsUnion_cons (f : Factor) (fs : List Factor) :
    inputsUnion (f :: fs) = f.inputs ∪ inputsUnion fs := by
  rw [inputsUnion, List.foldl_cons, inputsUnion_from]
  ext x
  simp

lemma inputsUnion_append (A B : List Factor) :
    inputsUnion (A ++ B) = inputsUnion A ∪ inputsUnion B := by
  induction A with
  | nil => simp [inputsUnion]
  | cons f A ih => simp [inputsUnion_cons, ih, Finset.union_assoc]

lemma mem_inputsUnion (fs : List Factor) (x : Var) :
    x ∈ inputsUnion fs ↔ ∃ f ∈ fs, x ∈ f.inputs := by
  induction fs with
  | nil => simp [inputsUnion]
  | cons f fs ih => simp [inputsUnion_cons, ih]

lemma addFactorToGroups_mem_factors (groups : List (List Factor × Finset Var))
    (f : Factor) (fv : Finset Var) (g : List Factor × Finset Var)
    (hg : g ∈ addFactorToGroups groups f fv) :
    g ∈ groups ∨
      (g.1 = ((groups.partition (fun g => decide ((g.2 ∩ fv) ≠ ∅))).1.map Prod.fst).flatten ++ [f]
        ∧ g.2 = (groups.partition (fun g => decide ((g.2 ∩ fv) ≠ ∅))).1.foldl (fun a g => a ∪ g.2) fv) := by
  rcases List.mem_append.mp hg with h | h
  · left
    rw [List.partition_eq_filter_filter] at h
    exact List.mem_of_mem_filter h
  · right
    rcases List.mem_singleton.mp h with rfl
    exact ⟨rfl, rfl⟩

lemma foldl_union_vars_subset (S : Finset Var) (l : List (List Factor × Finset Var))
    (a : Finset Var) (ha : a ⊆ S) (hl : ∀ g ∈ l, g.2 ⊆ S) :
    l.foldl (fun a g => a ∪ g.2) a ⊆ S := by
  induction l generalizing a with
  | nil => exact ha
  | cons g l ih =>
      refine ih _ (Finset.union_subset ha (hl g (by simp))) ?_
      exact fun h hh => hl h (by simp [hh])

lemma _partition_invariant (fs : List Factor) (S : Finset Var)
    (g : List Factor × Finset Var) (hg : g ∈ _partition fs S) :
    g.1 ≠ [] ∧ g.2 ⊆ S := by
  rw [_partition] at hg
  rw [show (fs.foldl (fun groups f => addFactorToGroups groups f (f.inputs ∩ S)) []) =
      (fs.foldl (fun groups f => addFactorToGroups groups f (f.inputs ∩ S)) []) from rfl] at hg
  have main : ∀ (l : List Factor) (init : List (List Factor × Finset Var)),
      (∀ h ∈ init, h.1 ≠ [] ∧ h.2 ⊆ S) →
      ∀ h ∈ l.foldl (fun groups f => addFactorToGroups groups f (f.inputs ∩ S)) init,
        h.1 ≠ [] ∧ h.2 ⊆ S := by
    intro l
    induction l with
    | nil => intro init hinit h hh; exact hinit h hh
    | cons f l ih =>
        intro init hinit h hh
        refine ih _ ?_ h hh
        intro k hk
        rcases addFactorToGroups_mem_factors init f (f.inputs ∩ S) k hk with h1 | ⟨h1, h2⟩
        · exact hinit k h1
        · constructor
          · rw [h1]; simp
          · rw [h2]
            refine foldl_union_vars_subset S _ _ Finset.inter_subset_right ?_
            intro p hp
            rw [List.partition_eq_filter_filter] at hp
            exact (hinit p (List.mem_of_mem_filter hp)).2
  exact main fs [] (by simp) g hg

lemma buildTargets_step_mono (ts : List (Finset Var × Factor)) (c : Factor)
    (e : Finset Var × Factor) (he : e ∈ ts) :
    e ∈ (if (ts.find? (fun p => decide (p.1 = c.inputs))).isSome then ts
      else ts ++ [(c.inputs, ⟨c.inputs, fun _ => 0⟩)]) := by
  split
  · exact he
  · exact List.mem_append_left _ he

lemma buildTargets_aux_mono (l : List Factor) (ts : List (Finset Var × Factor))
    (e : Finset Var × Factor) (he : e ∈ ts) :
    e ∈ l.foldl
      (fun ts c =>
        if (ts.find? (fun p => decide (p.1 = c.inputs))).isSome then ts
        else ts ++ [(c.inputs, ⟨c.inputs, fun _ => 0⟩)]) ts := by
  induction l generalizing ts with
  | nil => exact he
  | cons c l ih => exact ih _ (buildTargets_step_mono ts c e he)

lemma buildTargets_aux_covers (l : List Factor) (ts : List (Finset Var × Factor))
    (c : Factor) (hc : c ∈ l) :
    ∃ t, (c.inputs, t) ∈ l.foldl
      (fun ts c =>
        if (ts.find? (fun p => decide (p.1 = c.inputs))).isSome then ts
        else ts ++ [(c.inputs, ⟨c.inputs, fun _ => 0⟩)]) ts := by
  induction l generalizing ts with
  | nil => cases hc
  | cons a l ih =>
      rcases List.mem_cons.mp hc with rfl | hc
      · rcases h : (ts.find? (fun p => decide (p.1 = c.inputs))) with _ | p
        · refine ⟨⟨c.inputs, fun _ => 0⟩, ?_⟩
          refine buildTargets_aux_mono l _ _ ?_
          simp [h]
        · have hp1 : p.1 = c.inputs := by
            have := List.find?_some h
            simpa using this
          have hpmem : p ∈ ts := List.mem_of_find?_eq_some h
          refine ⟨p.2, ?_⟩
          refine buildTargets_aux_mono l _ _ ?_
          have : (c.inputs, p.2) = p := by
            rw [← hp1]
          rw [this]
          exact buildTargets_step_mono ts c p hpmem
      · exact ih _ hc

lemma buildTargets_covers (costs : List Factor) (c : Factor) (hc : c ∈ costs) :
    ∃ t, (c.inputs, t) ∈ buildTargets costs :=
  buildTargets_aux_covers costs [] c hc

lemma buildTargets_aux_mem (l : List Factor) (ts : List (Finset Var × Factor))
    (q : Finset Var × Factor)
    (hq : q ∈ l.foldl
      (fun ts c =>
        if (ts.find? (fun p => decide (p.1 = c.inputs))).isSome then ts
        else ts ++ [(c.inputs, ⟨c.inputs, fun _ => 0⟩)]) ts) :
    q ∈ ts ∨ ∃ c ∈ l, q = (c.inputs, ⟨c.inputs, fun _ => 0⟩) := by
  induction l generalizing ts with
  | nil => exact Or.inl hq
  | cons a l ih =>
      rcases ih _ hq with h | ⟨c, hc, rfl⟩
      · by_cases hf : (ts.find? (fun p => decide (p.1 = a.inputs))).isSome
        · simp only [List.foldl_cons, if_pos hf] at h
          exact Or.inl h
        · simp only [List.foldl_cons, if_neg hf] at h
          rcases List.mem_append.mp h with h | h
          · exact Or.inl h
          · exact Or.inr ⟨a, by simp, List.mem_singleton.mp h⟩
      · exact Or.inr ⟨c, by simp [hc], rfl⟩

lemma buildTargets_mem (costs : List Factor) (q : Finset Var × Factor)
    (hq : q ∈ buildTargets costs) :
    ∃ c ∈ costs, q = (c.inputs, ⟨c.inputs, fun _ => 0⟩) := by
  rcases buildTargets_aux_mem costs [] q hq with h | h
  · cases h
  · exact h

lemma buildTargets_entry (costs : List Factor) (p : Finset Var × Factor)
    (hp : p ∈ buildTargets costs) :
    p.2.inputs = p.1 ∧ p.2.val = (fun _ => 0) ∧ ∃ c ∈ costs, c.inputs = p.1 := by
  rcases buildTargets_mem costs p hp with ⟨c, hc, rfl⟩
  exact ⟨rfl, rfl, c, hc, rfl⟩

lemma buildTargets_keys_nodup (costs : List Factor) :
    ((buildTargets costs).map Prod.fst).Nodup := by
  have main : ∀ (l : List Factor) (ts : List (Finset Var × Factor)),
      (ts.map Prod.fst).Nodup →
      ((l.foldl
        (fun ts c =>
          if (ts.find? (fun p => decide (p.1 = c.inputs))).isSome then ts
          else ts ++ [(c.inputs, ⟨c.inputs, fun _ => 0⟩)]) ts).map Prod.fst).Nodup := by
    intro l
    induction l with
    | nil => intro ts h; exact h
    | cons c l ih =>
        intro ts h
        refine ih _ ?_
        rcases hf : ts.find? (fun p => decide (p.1 = c.inputs)) with _ | p
        · simp only [List.foldl_cons, hf, Option.isSome_none, Bool.false_eq_true, if_false,
            List.map_append]
          rw [List.nodup_append]
          refine ⟨h, by simp, ?_⟩
          intro a ha hb
          simp only [List.map_cons, List.map_nil, List.mem_singleton] at hb
          subst hb
          rcases List.mem_map.mp ha with ⟨q, hq, hq1⟩
          have := List.find?_eq_none.mp hf q hq
          simp only [decide_eq_true_eq] at this
          exact this hq1
        · simpa [List.foldl_cons, hf] using h
  simpa [buildTargets] using main costs [] (by simp)

lemma lookupMarginal_adjoint (card : Var → ℕ) (fs : List Factor)
    (plates eliminate : Finset Var) (probes : List (Finset Var × Factor))
    (hshape : ∀ q ∈ probes, q.2.inputs = q.1) (sig : Finset Var)
    (hmem : ∃ t, (sig, t) ∈ probes) :
    lookupMarginal (adjoint card fs plates eliminate probes) sig
      = Except.ok ⟨sig, fun σ =>
          (sum_product card fs plates (eliminate \ sig)).val σ
            - (sum_product card fs plates eliminate).val σ⟩ := by
  induction probes with
  | nil => rcases hmem with ⟨t, ht⟩; cases ht
  | cons q rest ih =>
      by_cases hq : q.1 = sig
      · have hqi : q.2.inputs = sig := by rw [hshape q (by simp), hq]
        simp [lookupMarginal, adjoint, List.find?_cons, hq, hqi]
      · have hmem' : ∃ t, (sig, t) ∈ rest := by
          rcases hmem with ⟨t, ht⟩
          rcases List.mem_cons.mp ht with h | h
          · exact absurd (congrArg Prod.fst h.symm) hq
          · exact ⟨t, h⟩
        have ih' := ih (fun p hp => hshape p (by simp [hp])) hmem'
        simpa [lookupMarginal, adjoint, List.find?_cons, hq] using ih'

lemma foldl_inter_mem (gp : Finset Var) (l : List Factor) (a : Finset Var) (x : Var) :
    (x ∈ l.foldl (fun a g => a ∩ (g.inputs ∩ gp)) a) ↔
      (x ∈ a ∧ ∀ f ∈ l, x ∈ f.inputs ∩ gp) := by
  induction l generalizing a with
  | nil => simp
  | cons f l ih =>
      rw [List.foldl_cons, ih]
      simp only [Finset.mem_inter, List.mem_cons]
      constructor
      · rintro ⟨⟨ha, hf⟩, hrest⟩
        exact ⟨ha, fun g hg => hg.elim (fun h => h ▸ hf) (fun h => hrest g h)⟩
      · rintro ⟨ha, hall⟩
        exact ⟨⟨ha, hall f (Or.inl rfl)⟩, fun g hg => hall g (Or.inr hg)⟩

lemma integrateAll_ok (card : Var → ℕ) (pv particle : Finset Var)
    (ms : List (Finset Var × Factor)) (M : Factor → Factor) (l : List Factor)
    (h : ∀ c ∈ l, lookupMarginal ms c.inputs = Except.ok (M c)) :
    ∃ g, integrateAll card pv particle ms l = Except.ok g ∧
      ∀ σ, g σ = (l.map (fun c => elboTermVal card pv particle (M c) c σ)).sum := by
  induction l with
  | nil => exact ⟨fun _ => 0, rfl, by simp⟩
  | cons c cs ih =>
      rcases ih (fun d hd => h d (by simp [hd])) with ⟨g, hg, hgv⟩
      refine ⟨fun σ => elboTermVal card pv particle (M c) c σ + g σ, ?_, ?_⟩
      · simp [integrateAll, h c (by simp), hg]
      · intro σ
        simp [hgv σ]

lemma lookupMarginal_error (ms : List (Finset Var × Factor)) (sig : Finset Var)
    (e : LossError) (h : lookupMarginal ms sig = Except.error e) :
    e = LossError.noMarginal := by
  rw [lookupMarginal] at h
  rcases hf : ms.find? (fun p => decide (p.1 = sig)) with _ | p
  · rw [hf] at h
    exact (Except.error.injEq _ _).mp h.symm
  · rw [hf] at h
    cases h

/-- C10: the vectorized particle plate named "num_particles_vectorized" is
introduced at dimension `-max_plate_nesting` exactly when `num_particles > 1`;
with `num_particles = 1` the particle variable set is empty and the final mean
reduction is a no-op; and with `num_particles > 1` a `None` or infinite
`max_plate_nesting` makes `differentiable_loss` fail. -/
theorem C10_particle_plate (card : Var → ℕ) (np n : ℕ) (model guide : TermBundle)
    (h : Asg → ℝ) :
    (particle_var np = if 1 < np then ({"num_particles_vectorized"} : Finset Var) else ∅)
    ∧ (particlePlateSetup np (PlateNesting.finite n)
        = Except.ok (if 1 < np then
            some ⟨"num_particles_vectorized", np, -(n : ℤ)⟩ else Option.none))
    ∧ (1 < np →
        differentiable_loss card np PlateNesting.none model guide
            = Except.error LossError.unsupportedParticleDim
        ∧ differentiable_loss card np PlateNesting.infinite model guide
            = Except.error LossError.unsupportedParticleDim)
    ∧ (np = 1 → particle_var np = ∅ ∧ meanReduce card (particle_var np) h = h) := by
  refine ⟨rfl, ?_, ?_, ?_⟩
  · by_cases h1 : 1 < np <;> simp [particlePlateSetup, h1]
  · intro h1
    constructor <;> simp [differentiable_loss, particlePlateSetup, h1]
  · intro h1
    subst h1
    have hpv : particle_var 1 = ∅ := by simp [particle_var]
    refine ⟨hpv, ?_⟩
    funext σ
    simp [meanReduce, hpv, sumAssign]

/-- C9: if a probe has no entry in the marginal map produced by the adjoint
pass, the integrator's lookup for the corresponding cost term fails with the
"no marginal available" error and the bound evaluation aborts rather than
returning a value. -/
theorem C9_missing_marginal_aborts (card : Var → ℕ) (pv particle : Finset Var)
    (ms : List (Finset Var × Factor)) (costs : List Factor) (c : Factor)
    (hc : c ∈ costs)
    (hmiss : ms.find? (fun p => decide (p.1 = c.inputs)) = none) :
    integrateAll card pv particle ms costs = Except.error LossError.noMarginal
    ∧ ∀ g : Asg → ℝ, integrateAll card pv particle ms costs ≠ Except.ok g := by
  have herr : integrateAll card pv particle ms costs
      = Except.error LossError.noMarginal := by
    induction costs with
    | nil => cases hc
    | cons a cs ih =>
        rcases List.mem_cons.mp hc with rfl | hc2
        · simp [integrateAll, lookupMarginal, hmiss]
        · rcases hl : lookupMarginal ms a.inputs with e | m
          · rw [lookupMarginal_error ms a.inputs e hl] at hl
            simp [integrateAll, hl]
          · simp [integrateAll, hl, ih hc2]
  exact ⟨herr, fun g => by rw [herr]; exact fun hcontra => by cases hcontra⟩

/-- C9 witness: a cost whose probe is absent from an (empty) marginal map makes
the integrator abort with the "no marginal available" error. -/
theorem C9_missing_marginal_aborts_witness :
    integrateAll (fun _ => 0) ∅ ∅ [] [⟨∅, fun _ => 0⟩]
        = Except.error LossError.noMarginal
    ∧ ∀ g : Asg → ℝ,
        integrateAll (fun _ => 0) ∅ ∅ [] [⟨∅, fun _ => 0⟩] ≠ Except.ok g :=
  C9_missing_marginal_aborts (fun _ => 0) ∅ ∅ [] [⟨∅, fun _ => 0⟩]
    ⟨∅, fun _ => 0⟩ (by simp) rfl

/-- C8: the cost list is exactly the contracted costs (model log factors whose
inputs meet the model-only measure variables, eliminated group by group),
followed by the untouched model log factors, followed by the guide log factors
negated. -/
theorem C8_cost_accumulation (card : Var → ℕ) (model guide : TermBundle) :
    costsOf card model guide
      = contractedCosts card model guide
        ++ model.log_factors.filter
            (fun f => decide ((model_measure_vars model guide ∩ f.inputs) = ∅))
        ++ guide.log_factors.map negF
    ∧ (factorSplit model guide).1
        = model.log_factors.filter
            (fun f => decide ((model_measure_vars model guide ∩ f.inputs) ≠ ∅))
    ∧ (∀ f : Factor, (negF f).inputs = f.inputs ∧ ∀ σ, (negF f).val σ = -(f.val σ))
    ∧ contractedCosts card model guide
      = ((_partition (model.log_measures
            ++ model.log_factors.filter
              (fun f => decide ((model_measure_vars model guide ∩ f.inputs) ≠ ∅)))
          model.measure_vars).map
          (fun g => (groupContract card model.plate_vars g.1 g.2).map
            (scaleMul model.scale))).flatten := by
  have hsplit1 : (factorSplit model guide).1
      = model.log_factors.filter
          (fun f => decide ((model_measure_vars model guide ∩ f.inputs) ≠ ∅)) := by
    rw [factorSplit, List.partition_eq_filter_filter]
  have hsplit2 : (factorSplit model guide).2
      = model.log_factors.filter
          (fun f => decide ((model_measure_vars model guide ∩ f.inputs) = ∅)) := by
    rw [factorSplit, List.partition_eq_filter_filter]
    refine List.filter_congr (fun f _ => ?_)
    simp [Function.comp, decide_not, Bool.not_not]
  refine ⟨?_, hsplit1, fun f => ⟨rfl, fun σ => rfl⟩, ?_⟩
  · rw [costsOf, hsplit2]
  · rw [contractedCosts, hsplit1]

/-- C6: probe construction deduplicates by free-variable signature — the target
map's keys are distinct and are exactly the signatures of the cost terms, every
probe is the zero factor over its own signature, and two cost terms with equal
signatures look up the same marginal. -/
theorem C6_probe_dedup (card : Var → ℕ) (fs : List Factor)
    (plates eliminate : Finset Var) (costs : List Factor) :
    ((buildTargets costs).map Prod.fst).Nodup
    ∧ (∀ s : Finset Var,
        (∃ t, (s, t) ∈ buildTargets costs) ↔ ∃ c ∈ costs, c.inputs = s)
    ∧ (∀ p ∈ buildTargets costs, p.2.inputs = p.1 ∧ ∀ σ, p.2.val σ = 0)
    ∧ (∀ c₁ c₂ : Factor, c₁ ∈ costs → c₂ ∈ costs → c₁.inputs = c₂.inputs →
        lookupMarginal (adjoint card fs plates eliminate (buildTargets costs)) c₁.inputs
          = lookupMarginal (adjoint card fs plates eliminate (buildTargets costs))
              c₂.inputs) := by
  refine ⟨buildTargets_keys_nodup costs, ?_, ?_, ?_⟩
  · intro s
    constructor
    · rintro ⟨t, ht⟩
      rcases buildTargets_mem costs (s, t) ht with ⟨c, hc, hceq⟩
      exact ⟨c, hc, (congrArg Prod.fst hceq).symm⟩
    · rintro ⟨c, hc, rfl⟩
      exact buildTargets_covers costs c hc
  · intro p hp
    rcases buildTargets_entry costs p hp with ⟨h1, h2, _⟩
    exact ⟨h1, fun σ => by rw [h2]⟩
  · intro c₁ c₂ _ _ h12
    rw [h12]

/-- C3: for every group of the model's partial elimination, the outer plates
are the intersection over the group's factors of that factor's inputs
restricted to the group's plate variables, the local plates are the group's
plate variables minus the outer plates, the set passed as `eliminate` to the
partial sum-product is exactly the group's elimination variables union the
local plates, and (the plates being disjoint from the elimination variables)
the outer plates are never eliminated. -/
theorem C3_group_plate_sets (card : Var → ℕ) (fs : List Factor)
    (S mplates : Finset Var) (g : List Factor × Finset Var)
    (hg : g ∈ _partition fs S) :
    (∀ x : Var, x ∈ outermostPlates (groupPlates mplates g.1) g.1 ↔
        ∀ f ∈ g.1, x ∈ f.inputs ∩ groupPlates mplates g.1)
    ∧ elimPlates (groupPlates mplates g.1) g.1
        = groupPlates mplates g.1 \ outermostPlates (groupPlates mplates g.1) g.1
    ∧ groupContract card mplates g.1 g.2
        = partial_sum_product card g.1 (groupPlates mplates g.1)
            (g.2 ∪ elimPlates (groupPlates mplates g.1) g.1)
    ∧ (mplates ∩ S = ∅ →
        outermostPlates (groupPlates mplates g.1) g.1
          ∩ (g.2 ∪ elimPlates (groupPlates mplates g.1) g.1) = ∅) := by
  obtain ⟨hne, hsub⟩ := _partition_invariant fs S g hg
  obtain ⟨f0, rest, hcons⟩ := List.exists_cons_of_ne_nil hne
  have hchar : ∀ x : Var, x ∈ outermostPlates (groupPlates mplates g.1) g.1 ↔
      ∀ f ∈ g.1, x ∈ f.inputs ∩ groupPlates mplates g.1 := by
    intro x
    rw [hcons]
    rw [show outermostPlates (groupPlates mplates (f0 :: rest)) (f0 :: rest)
        = rest.foldl (fun a h => a ∩ (h.inputs ∩ groupPlates mplates (f0 :: rest)))
            (f0.inputs ∩ groupPlates mplates (f0 :: rest)) from rfl]
    rw [foldl_inter_mem]
    constructor
    · rintro ⟨h1, h2⟩ f hf
      rcases List.mem_cons.mp hf with rfl | hf2
      · exact h1
      · exact h2 f hf2
    · intro hall
      exact ⟨hall f0 (by simp), fun f hf => hall f (by simp [hf])⟩
  refine ⟨hchar, rfl, rfl, ?_⟩
  · intro hdis
    rw [Finset.eq_empty_iff_forall_not_mem]
    intro x hx
    rcases Finset.mem_inter.mp hx with ⟨hout, helim⟩
    have hgp : x ∈ groupPlates mplates g.1 := by
      have := (hchar x).mp hout f0 (by rw [hcons]; simp)
      exact (Finset.mem_inter.mp this).2
    have hmp : x ∈ mplates := Finset.mem_of_mem_inter_left hgp
    rcases Finset.mem_union.mp helim with hv | hl
    · have hxS : x ∈ S := hsub hv
      have : x ∈ mplates ∩ S := Finset.mem_inter.mpr ⟨hmp, hxS⟩
      rw [hdis] at this
      exact absurd this (Finset.not_mem_empty x)
    · exact absurd hout (Finset.mem_sdiff.mp hl).2

/-- C4: the forward logZ contraction is a single sum-product whose factor list
is exactly the guide's log measures concatenated with the probes and whose
eliminated set is exactly the plate variables union the guide's measure
variables; and a cost term's surviving free variables (those left after its
expectation and its plate reduction) avoid the eliminated variables of its
probe's signature, provided the particle plate is not a guide measure
variable. -/
theorem C4_forward_contraction (card : Var → ℕ) (model guide : TermBundle)
    (np : ℕ) :
    logzqOf card model guide np
      = sum_product card
          (guide.log_measures
            ++ (buildTargets (costsOf card model guide)).map Prod.snd)
          (plateVars model guide np)
          (plateVars model guide np ∪ guide.measure_vars)
    ∧ (∀ c : Factor,
        particle_var np ∩ guide.measure_vars = ∅ →
        ((c.inputs \ ((c.inputs \ plateVars model guide np) \ particle_var np))
            \ (plateVars model guide np ∩ c.inputs))
          ∩ ((plateVars model guide np ∪ guide.measure_vars) ∩ c.inputs)
          = ∅) := by
  refine ⟨rfl, ?_⟩
  intro c hpd
  rw [Finset.eq_empty_iff_forall_not_mem]
  intro x hx
  obtain ⟨hA, hB⟩ := Finset.mem_inter.mp hx
  obtain ⟨hin1, hnotpl⟩ := Finset.mem_sdiff.mp hA
  obtain ⟨hxin, hnotmv⟩ := Finset.mem_sdiff.mp hin1
  obtain ⟨helim, _⟩ := Finset.mem_inter.mp hB
  have hxnp : x ∉ plateVars model guide np :=
    fun hp => hnotpl (Finset.mem_inter.mpr ⟨hp, hxin⟩)
  have hxpart : x ∈ particle_var np := by
    by_contra hnp
    exact hnotmv (Finset.mem_sdiff.mpr ⟨Finset.mem_sdiff.mpr ⟨hxin, hxnp⟩, hnp⟩)
  have hxg : x ∈ guide.measure_vars := (Finset.mem_union.mp helim).resolve_left hxnp
  have hmem : x ∈ particle_var np ∩ guide.measure_vars :=
    Finset.mem_inter.mpr ⟨hxpart, hxg⟩
  rw [hpd] at hmem
  exact absurd hmem (Finset.not_mem_empty x)

/-- A one-factor instance used to exhibit a concrete partition group. -/
noncomputable def fzW : Factor := ⟨{"z"}, fun _ => 3⟩

/-- C3 witness: the plate-set computations of a concrete singleton partition
group. -/
theorem C3_group_plate_sets_witness :
    (∀ x : Var, x ∈ outermostPlates (groupPlates ∅ ([fzW], ({"z"} : Finset Var) ∩ {"z"}).1)
          ([fzW], ({"z"} : Finset Var) ∩ {"z"}).1 ↔
        ∀ f ∈ ([fzW], ({"z"} : Finset Var) ∩ {"z"}).1,
          x ∈ f.inputs ∩ groupPlates ∅ ([fzW], ({"z"} : Finset Var) ∩ {"z"}).1)
    ∧ elimPlates (groupPlates ∅ ([fzW], ({"z"} : Finset Var) ∩ {"z"}).1)
          ([fzW], ({"z"} : Finset Var) ∩ {"z"}).1
        = groupPlates ∅ ([fzW], ({"z"} : Finset Var) ∩ {"z"}).1
          \ outermostPlates (groupPlates ∅ ([fzW], ({"z"} : Finset Var) ∩ {"z"}).1)
              ([fzW], ({"z"} : Finset Var) ∩ {"z"}).1
    ∧ groupContract (fun _ => 1) ∅ ([fzW], ({"z"} : Finset Var) ∩ {"z"}).1
          ([fzW], ({"z"} : Finset Var) ∩ {"z"}).2
        = partial_sum_product (fun _ => 1) ([fzW], ({"z"} : Finset Var) ∩ {"z"}).1
            (groupPlates ∅ ([fzW], ({"z"} : Finset Var) ∩ {"z"}).1)
            (([fzW], ({"z"} : Finset Var) ∩ {"z"}).2
              ∪ elimPlates (groupPlates ∅ ([fzW], ({"z"} : Finset Var) ∩ {"z"}).1)
                  ([fzW], ({"z"} : Finset Var) ∩ {"z"}).1)
    ∧ ((∅ : Finset Var) ∩ {"z"} = ∅ →
        outermostPlates (groupPlates ∅ ([fzW], ({"z"} : Finset Var) ∩ {"z"}).1)
            ([fzW], ({"z"} : Finset Var) ∩ {"z"}).1
          ∩ (([fzW], ({"z"} : Finset Var) ∩ {"z"}).2
            ∪ elimPlates (groupPlates ∅ ([fzW], ({"z"} : Finset Var) ∩ {"z"}).1)
                ([fzW], ({"z"} : Finset Var) ∩ {"z"}).1) = ∅) :=
  C3_group_plate_sets (fun _ => 1) [fzW] {"z"} ∅ ([fzW], ({"z"} : Finset Var) ∩ {"z"})
    (List.mem_singleton.mpr rfl)

/-- C5: the integrator's remaining measure variables for a term are exactly the
term's inputs minus the plate variables minus the particle plate, the term's
contribution is the `Integrate` expectation under its marginal sum-reduced over
the plate variables the term carries, and the returned scalar is the negation
of the particle-plate mean of the accumulated contributions. -/
theorem C5_integrator (card : Var → ℕ) (np n : ℕ) (model guide : TermBundle)
    (m c : Factor) :
    ((c.inputs \ plateVars model guide np) \ particle_var np
        = c.inputs \ (plateVars model guide np ∪ particle_var np))
    ∧ (∀ σ, elboTermVal card (plateVars model guide np) (particle_var np) m c σ
        = addReduce card (plateVars model guide np ∩ c.inputs)
            (Integrate card m c
              ((c.inputs \ plateVars model guide np) \ particle_var np)).val σ)
    ∧ (∀ (V : Finset Var) (σ : Asg), (Integrate card m c V).val σ
        = sumAssign card V.toList (fun τ => Real.exp (m.val τ) * c.val τ) σ)
    ∧ (∀ g : Asg → ℝ,
        integrateAll card (plateVars model guide np) (particle_var np)
            (marginalsOf card model guide np) (costsOf card model guide)
          = Except.ok g →
        differentiable_loss card np (PlateNesting.finite n) model guide
          = Except.ok (-(meanReduce card (particle_var np) g baseAsg))) := by
  refine ⟨?_, fun σ => rfl, fun V σ => rfl, ?_⟩
  · ext x
    simp only [Finset.mem_sdiff, Finset.mem_union]
    tauto
  · intro g hg
    by_cases h1 : 1 < np <;>
      simp [differentiable_loss, particlePlateSetup, h1, lossCore, hg]

/-- The values of all probes are zero. -/
lemma probes_val_zero (costs : List Factor) :
    ∀ f ∈ (buildTargets costs).map Prod.snd, f.val = fun _ => (0 : ℝ) := by
  intro f hf
  rcases List.mem_map.mp hf with ⟨p, hp, rfl⟩
  exact (buildTargets_entry costs p hp).2.1

/-- Appending zero-valued factors does not change the combined value. -/
lemma combine_append_zero_val (Ms Ps : List Factor)
    (hPs : ∀ f ∈ Ps, f.val = fun _ => (0 : ℝ)) (τ : Asg) :
    (combine (Ms ++ Ps)).val τ = (combine Ms).val τ := by
  rw [combine_append_val]
  have : (combine Ps).val τ = 0 := by
    apply List.sum_eq_zero
    intro x hx
    rcases List.mem_map.mp hx with ⟨f, hf, rfl⟩
    rw [hPs f hf]
  rw [this, add_zero]

/-- C7: because the probes are zero-valued, the forward logZ contraction over
the guide's log measures together with the probes has the same value as the
same contraction over the guide's log measures alone, whenever the probes
carry no eliminated variable that the guide's log measures do not already
carry. -/
theorem C7_probes_no_op (card : Var → ℕ) (model guide : TermBundle) (np : ℕ)
    (hcover : (plateVars model guide np ∪ guide.measure_vars)
        ∩ inputsUnion ((buildTargets (costsOf card model guide)).map Prod.snd)
      ⊆ (combine guide.log_measures).inputs) :
    ∀ σ, (logzqOf card model guide np).val σ
      = (sum_product card guide.log_measures (plateVars model guide np)
          (plateVars model guide np ∪ guide.measure_vars)).val σ := by
  intro σ
  set pv := plateVars model guide np
  set E := pv ∪ guide.measure_vars with hE
  set Ms := guide.log_measures
  set Ps := (buildTargets (costsOf card model guide)).map Prod.snd with hPs
  have hin : (combine (Ms ++ Ps)).inputs = inputsUnion Ms ∪ inputsUnion Ps := by
    rw [show (combine (Ms ++ Ps)).inputs = inputsUnion (Ms ++ Ps) from rfl]
    exact inputsUnion_append Ms Ps
  have hMsin : (combine Ms).inputs = inputsUnion Ms := rfl
  have hsets : ∀ X : Finset Var, X ⊆ E →
      X ∩ (combine (Ms ++ Ps)).inputs = X ∩ (combine Ms).inputs := by
    intro X hX
    rw [hin, hMsin]
    ext x
    simp only [Finset.mem_inter, Finset.mem_union]
    constructor
    · rintro ⟨hx, hA | hB⟩
      · exact ⟨hx, hA⟩
      · have : x ∈ (combine Ms).inputs :=
          hcover (Finset.mem_inter.mpr ⟨hX hx, by rw [hPs] at hB ⊢; exact hB⟩)
        exact ⟨hx, this⟩
    · rintro ⟨hx, hA⟩
      exact ⟨hx, Or.inl hA⟩
  have hval : ∀ τ, (combine (Ms ++ Ps)).val τ = (combine Ms).val τ :=
    combine_append_zero_val Ms Ps (probes_val_zero _)
  have hlse : ∀ (V : Finset Var) (τ : Asg),
      lseReduce card V (combine (Ms ++ Ps)).val τ
        = lseReduce card V (combine Ms).val τ := by
    intro V τ
    unfold lseReduce
    rw [sumAssign_congr card V.toList _ _ (fun ρ => by rw [hval ρ])]
  show addReduce card ((E ∩ pv) ∩ (combine (Ms ++ Ps)).inputs)
      (lseReduce card ((E \ pv) ∩ (combine (Ms ++ Ps)).inputs)
        (combine (Ms ++ Ps)).val) σ
    = addReduce card ((E ∩ pv) ∩ (combine Ms).inputs)
      (lseReduce card ((E \ pv) ∩ (combine Ms).inputs) (combine Ms).val) σ
  rw [hsets (E ∩ pv) Finset.inter_subset_left,
    hsets (E \ pv) (Finset.sdiff_subset.trans (le_refl E))]
  unfold addReduce
  exact sumAssign_congr card _ _ _ (fun τ => by rw [hlse]) σ

/-- A domain with one value per variable. -/
def card1 : Var → ℕ := fun _ => 1

/-- Concrete model bundle: one observed log factor over the auxiliary latent
`z`, scale 2. -/
noncomputable def modelC : TermBundle := ⟨[fzW], [], {"z"}, ∅, 2⟩

/-- Concrete guide bundle with nothing in it. -/
noncomputable def guideC : TermBundle := ⟨[], [], ∅, ∅, 1⟩

/-- C2 counterexample: in the concrete instance the group elimination yields
the single log-factor value 3 and the bundle's scale is 2, yet the appended
contracted cost has value 6 = 2 * 3 (the code multiplies the log factor by the
scale), not 5 = 3 + 2 as the claimed log-space addition would give. -/
theorem C2_scale_counterexample :
    modelC.scale = 2
    ∧ (groupContract card1 modelC.plate_vars [fzW] (fzW.inputs ∩ {"z"})).map
        (fun f => f.val baseAsg) = [(3 : ℝ)]
    ∧ (contractedCosts card1 modelC guideC).map (fun f => f.val baseAsg) = [(6 : ℝ)]
    ∧ (6 : ℝ) ≠ 3 + 2 := by
  have hval : ∀ σ : Asg,
      (sum_product card1 [fzW] (groupPlates modelC.plate_vars [fzW])
        ((fzW.inputs ∩ {"z"})
          ∪ elimPlates (groupPlates modelC.plate_vars [fzW]) [fzW])).val σ
      = 3 := by
    intro σ
    have hplates : ((((fzW.inputs ∩ {"z"})
        ∪ elimPlates (groupPlates modelC.plate_vars [fzW]) [fzW])
          ∩ groupPlates modelC.plate_vars [fzW]) ∩ (combine [fzW]).inputs)
        = (∅ : Finset Var) := by decide
    have hsum : ((((fzW.inputs ∩ {"z"})
        ∪ elimPlates (groupPlates modelC.plate_vars [fzW]) [fzW])
          \ groupPlates modelC.plate_vars [fzW]) ∩ (combine [fzW]).inputs)
        = ({"z"} : Finset Var) := by decide
    show addReduce card1 _ (lseReduce card1 _ (combine [fzW]).val) σ = 3
    rw [hplates, hsum]
    unfold addReduce
    rw [Finset.toList_empty]
    show lseReduce card1 {"z"} (combine [fzW]).val σ = 3
    unfold lseReduce
    rw [show ({"z"} : Finset Var).toList = ["z"] from Finset.toList_singleton "z"]
    show Real.log ((Finset.range (card1 "z")).sum
      (fun i => Real.exp ((combine [fzW]).val (setAsg σ "z" i)))) = 3
    rw [show card1 "z" = 1 from rfl, Finset.sum_range_one]
    show Real.log (Real.exp (fzW.val (setAsg σ "z" 0) + 0)) = 3
    rw [show fzW.val (setAsg σ "z" 0) = 3 from rfl, add_zero, Real.log_exp]
  have hgroup : (groupContract card1 modelC.plate_vars [fzW] (fzW.inputs ∩ {"z"})).map
      (fun f => f.val baseAsg) = [(3 : ℝ)] := by
    show [(sum_product card1 [fzW] (groupPlates modelC.plate_vars [fzW])
        ((fzW.inputs ∩ {"z"})
          ∪ elimPlates (groupPlates modelC.plate_vars [fzW]) [fzW])).val baseAsg]
      = [(3 : ℝ)]
    rw [hval]
  refine ⟨rfl, hgroup, ?_, by norm_num⟩
  show [modelC.scale * (sum_product card1 [fzW] (groupPlates modelC.plate_vars [fzW])
      ((fzW.inputs ∩ {"z"})
        ∪ elimPlates (groupPlates modelC.plate_vars [fzW]) [fzW])).val baseAsg]
    = [(6 : ℝ)]
  rw [hval, show modelC.scale = 2 from rfl]
  norm_num

/-- C2 amended: each factor resulting from a partition group's sum-product
elimination is multiplied pointwise by the bundle's scale weight (funsor
multiplication of the log factor by the scale; in probability space the factor
is raised to the power of the scale), not combined by log-space addition,
before being appended to the contracted costs. -/
theorem C2_scale_multiplies (card : Var → ℕ) (model guide : TermBundle)
    (c : Factor) (hc : c ∈ contractedCosts card model guide) :
    ∃ g ∈ _partition (model.log_measures ++ (factorSplit model guide).1)
        model.measure_vars,
      ∃ f ∈ groupContract card model.plate_vars g.1 g.2,
        c.inputs = f.inputs ∧ ∀ σ, c.val σ = model.scale * f.val σ := by
  rw [contractedCosts] at hc
  rcases List.mem_flatten.mp hc with ⟨l, hl, hcl⟩
  rcases List.mem_map.mp hl with ⟨g, hgmem, rfl⟩
  rcases List.mem_map.mp hcl with ⟨f, hfmem, rfl⟩
  exact ⟨g, hgmem, f, hfmem, rfl, fun σ => rfl⟩

/-- C2 witness: the concrete contracted cost of the counterexample instance is
the scale multiple of a group-eliminated factor. -/
theorem C2_scale_multiplies_witness :
    ∃ g ∈ _partition (modelC.log_measures ++ (factorSplit modelC guideC).1)
        modelC.measure_vars,
      ∃ f ∈ groupContract card1 modelC.plate_vars g.1 g.2,
        (scaleMul modelC.scale
            (sum_product card1 [fzW] (groupPlates modelC.plate_vars [fzW])
              ((fzW.inputs ∩ {"z"})
                ∪ elimPlates (groupPlates modelC.plate_vars [fzW]) [fzW]))).inputs
          = f.inputs
        ∧ ∀ σ, (scaleMul modelC.scale
            (sum_product card1 [fzW] (groupPlates modelC.plate_vars [fzW])
              ((fzW.inputs ∩ {"z"})
                ∪ elimPlates (groupPlates modelC.plate_vars [fzW]) [fzW]))).val σ
          = modelC.scale * f.val σ :=
  C2_scale_multiplies card1 modelC guideC
    (scaleMul modelC.scale
      (sum_product card1 [fzW] (groupPlates modelC.plate_vars [fzW])
        ((fzW.inputs ∩ {"z"})
          ∪ elimPlates (groupPlates modelC.plate_vars [fzW]) [fzW])))
    (List.mem_singleton.mpr rfl)

/-- A normalized guide measure over the latent `x` (domain of size 1, value 0,
so that log-sum-exp over `x` is 0). -/
noncomputable def gxW : Factor := ⟨{"x"}, fun _ => 0⟩

/-- A model log factor over the latent `x`. -/
noncomputable def mxW : Factor := ⟨{"x"}, fun _ => 2⟩

/-- Concrete guide bundle with one measure over `x`. -/
noncomputable def guideW : TermBundle := ⟨[], [gxW], {"x"}, ∅, 1⟩

/-- Concrete model bundle with one log factor over `x` and no model-only
latents. -/
noncomputable def modelW : TermBundle := ⟨[mxW], [], ∅, ∅, 1⟩

/-- C7 witness: the concrete forward contraction with probes equals the one
without them, read at the base assignment. -/
theorem C7_probes_no_op_witness :
    (logzqOf card1 modelW guideW 1).val baseAsg
      = (sum_product card1 guideW.log_measures (plateVars modelW guideW 1)
          (plateVars modelW guideW 1 ∪ guideW.measure_vars)).val baseAsg :=
  C7_probes_no_op card1 modelW guideW 1 (by decide) baseAsg

lemma list_sum_map_neg (l : List ℝ) : (l.map (fun x => -x)).sum = -l.sum := by
  induction l with
  | nil => simp
  | cons a l ih => simp [ih, neg_add, add_comm]

/-- Central normalization lemma: when every probe is zero-valued, the guide's
measure variables are disjoint from the plates and from `S`, and the combined
guide measures log-sum-exp to zero over the measure variables, the forward
contraction eliminating everything but `S` has value zero everywhere. -/
lemma sp_measures_zero (card : Var → ℕ) (Ms Ps : List Factor)
    (pv gmv S : Finset Var)
    (hPs : ∀ f ∈ Ps, f.val = fun _ => (0 : ℝ))
    (hdisj : gmv ∩ pv = ∅)
    (hS : S ∩ gmv = ∅)
    (hsub : gmv ⊆ (combine Ms).inputs)
    (hnorm : ∀ σ, lseReduce card gmv (combine Ms).val σ = 0) :
    ∀ σ, (sum_product card (Ms ++ Ps) pv ((pv ∪ gmv) \ S)).val σ = 0 := by
  intro σ
  have hval : ∀ τ, (combine (Ms ++ Ps)).val τ = (combine Ms).val τ :=
    combine_append_zero_val Ms Ps hPs
  have hinput : (combine (Ms ++ Ps)).inputs = inputsUnion Ms ∪ inputsUnion Ps := by
    rw [show (combine (Ms ++ Ps)).inputs = inputsUnion (Ms ++ Ps) from rfl]
    exact inputsUnion_append Ms Ps
  have hset : (((pv ∪ gmv) \ S) \ pv) ∩ (combine (Ms ++ Ps)).inputs = gmv := by
    ext x
    rw [hinput]
    simp only [Finset.mem_inter, Finset.mem_sdiff, Finset.mem_union]
    constructor
    · rintro ⟨⟨⟨hpv | hgm, _⟩, hnpv⟩, _⟩
      · exact absurd hpv hnpv
      · exact hgm
    · intro hx
      have hxnpv : x ∉ pv := by
        intro hp
        have hmem : x ∈ gmv ∩ pv := Finset.mem_inter.mpr ⟨hx, hp⟩
        rw [hdisj] at hmem
        exact absurd hmem (Finset.not_mem_empty x)
      have hxnS : x ∉ S := by
        intro hs
        have hmem : x ∈ S ∩ gmv := Finset.mem_inter.mpr ⟨hs, hx⟩
        rw [hS] at hmem
        exact absurd hmem (Finset.not_mem_empty x)
      exact ⟨⟨⟨Or.inr hx, hxnS⟩, hxnpv⟩, Or.inl (hsub hx)⟩
  have hlse0 : ∀ τ, lseReduce card gmv (combine (Ms ++ Ps)).val τ = 0 := by
    intro τ
    unfold lseReduce
    rw [sumAssign_congr card gmv.toList _ _ (fun ρ => by rw [hval ρ]) τ]
    exact hnorm τ
  show addReduce card ((((pv ∪ gmv) \ S) ∩ pv) ∩ (combine (Ms ++ Ps)).inputs)
      (lseReduce card ((((pv ∪ gmv) \ S) \ pv) ∩ (combine (Ms ++ Ps)).inputs)
        (combine (Ms ++ Ps)).val) σ = 0
  rw [hset]
  unfold addReduce
  rw [sumAssign_congr card _ _ (fun _ => 0) (fun τ => hlse0 τ) σ]
  exact sumAssign_zero card _ σ

/-- C1: for a model/guide pair with no latent measure variables beyond those
shared with the guide — no model-only auxiliary latents and no model-side
measures, every cost term's inputs confined to the plate and particle
variables, the guide's measure variables disjoint from plates and particle,
and the guide's measures normalized (their log-sum-exp over the guide's
measure variables is zero) — `differentiable_loss` returns exactly the naive
estimator: the negation of (sum of model log-factors minus sum of guide
log-factors), each summed over the plate variables it carries and averaged
over the particle plate.  The contraction/adjoint path is a no-op. -/
theorem C1_degenerate_equals_naive (card : Var → ℕ) (np n : ℕ)
    (model guide : TermBundle)
    (h0 : model.measure_vars ⊆ guide.measure_vars)
    (h1 : model.log_measures = [])
    (h2 : ∀ f ∈ model.log_factors,
        f.inputs ⊆ plateVars model guide np ∪ particle_var np)
    (h3 : ∀ f ∈ guide.log_factors,
        f.inputs ⊆ plateVars model guide np ∪ particle_var np)
    (h4 : guide.measure_vars ∩ (plateVars model guide np ∪ particle_var np) = ∅)
    (h5 : ∀ σ,
        lseReduce card guide.measure_vars (combine guide.log_measures).val σ = 0)
    (h6 : guide.measure_vars ⊆ (combine guide.log_measures).inputs) :
    differentiable_loss card np (PlateNesting.finite n) model guide
      = Except.ok (naiveLoss card np model guide) := by
  have hmmv : model_measure_vars model guide = ∅ := by
    rw [model_measure_vars]
    exact Finset.sdiff_eq_empty_iff_subset.mpr h0
  have hsplit : factorSplit model guide = ([], model.log_factors) := by
    rw [factorSplit]
    have hpred : (fun f : Factor =>
        decide ((model_measure_vars model guide ∩ f.inputs) ≠ ∅)) = fun _ => false := by
      funext f
      rw [hmmv]
      simp
    rw [hpred]
    rw [List.partition_eq_filter_filter]
    simp
  have hcc : contractedCosts card model guide = [] := by
    rw [contractedCosts, h1, hsplit]
    rfl
  have hcosts : costsOf card model guide
      = model.log_factors ++ guide.log_factors.map negF := by
    rw [costsOf, hcc, hsplit]
    rfl
  have hin : ∀ c ∈ costsOf card model guide,
      c.inputs ⊆ plateVars model guide np ∪ particle_var np := by
    intro c hc
    rw [hcosts] at hc
    rcases List.mem_append.mp hc with h | h
    · exact h2 c h
    · rcases List.mem_map.mp h with ⟨f, hf, rfl⟩
      exact h3 f hf
  have hsig : ∀ c ∈ costsOf card model guide,
      c.inputs ∩ guide.measure_vars = ∅ := by
    intro c hc
    rw [Finset.eq_empty_iff_forall_not_mem]
    intro x hx
    obtain ⟨hxi, hxg⟩ := Finset.mem_inter.mp hx
    have hmem : x ∈ guide.measure_vars
        ∩ (plateVars model guide np ∪ particle_var np) :=
      Finset.mem_inter.mpr ⟨hxg, hin c hc hxi⟩
    rw [h4] at hmem
    exact absurd hmem (Finset.not_mem_empty x)
  have hdisj : guide.measure_vars ∩ plateVars model guide np = ∅ := by
    rw [Finset.eq_empty_iff_forall_not_mem]
    intro x hx
    obtain ⟨hxg, hxp⟩ := Finset.mem_inter.mp hx
    have hmem : x ∈ guide.measure_vars
        ∩ (plateVars model guide np ∪ particle_var np) :=
      Finset.mem_inter.mpr ⟨hxg, Finset.mem_union.mpr (Or.inl hxp)⟩
    rw [h4] at hmem
    exact absurd hmem (Finset.not_mem_empty x)
  have hz : ∀ S : Finset Var, S ∩ guide.measure_vars = ∅ → ∀ σ,
      (sum_product card
        (guide.log_measures
          ++ (buildTargets (costsOf card model guide)).map Prod.snd)
        (plateVars model guide np)
        ((plateVars model guide np ∪ guide.measure_vars) \ S)).val σ = 0 :=
    fun S hS σ => sp_measures_zero card guide.log_measures
      ((buildTargets (costsOf card model guide)).map Prod.snd)
      (plateVars model guide np) guide.measure_vars S
      (probes_val_zero _) hdisj hS h6 h5 σ
  have hzE : ∀ σ,
      (sum_product card
        (guide.log_measures
          ++ (buildTargets (costsOf card model guide)).map Prod.snd)
        (plateVars model guide np)
        (plateVars model guide np ∪ guide.measure_vars)).val σ = 0 := by
    intro σ
    have h := hz ∅ (Finset.empty_inter _) σ
    rwa [Finset.sdiff_empty] at h
  have hshape : ∀ q ∈ buildTargets (costsOf card model guide), q.2.inputs = q.1 :=
    fun q hq => (buildTargets_entry _ q hq).1
  have hlook : ∀ c ∈ costsOf card model guide,
      lookupMarginal (marginalsOf card model guide np) c.inputs
        = Except.ok ⟨c.inputs, fun σ =>
            (sum_product card
              (guide.log_measures
                ++ (buildTargets (costsOf card model guide)).map Prod.snd)
              (plateVars model guide np)
              ((plateVars model guide np ∪ guide.measure_vars) \ c.inputs)).val σ
            - (sum_product card
              (guide.log_measures
                ++ (buildTargets (costsOf card model guide)).map Prod.snd)
              (plateVars model guide np)
              (plateVars model guide np ∪ guide.measure_vars)).val σ⟩ := by
    intro c hc
    simp only [marginalsOf]
    exact lookupMarginal_adjoint card _ _ _ _ hshape c.inputs
      (buildTargets_covers _ c hc)
  obtain ⟨g, hg, hgv⟩ := integrateAll_ok card (plateVars model guide np)
    (particle_var np) (marginalsOf card model guide np)
    (fun c => ⟨c.inputs, fun σ =>
        (sum_product card
          (guide.log_measures
            ++ (buildTargets (costsOf card model guide)).map Prod.snd)
          (plateVars model guide np)
          ((plateVars model guide np ∪ guide.measure_vars) \ c.inputs)).val σ
        - (sum_product card
          (guide.log_measures
            ++ (buildTargets (costsOf card model guide)).map Prod.snd)
          (plateVars model guide np)
          (plateVars model guide np ∪ guide.measure_vars)).val σ⟩)
    (costsOf card model guide) hlook
  have hmv : ∀ c ∈ costsOf card model guide,
      (c.inputs \ plateVars model guide np) \ particle_var np = ∅ := by
    intro c hc
    rw [Finset.eq_empty_iff_forall_not_mem]
    intro x hx
    obtain ⟨hx1, hxq⟩ := Finset.mem_sdiff.mp hx
    obtain ⟨hxi, hxp⟩ := Finset.mem_sdiff.mp hx1
    rcases Finset.mem_union.mp (hin c hc hxi) with h | h
    · exact hxp h
    · exact hxq h
  have hterm : ∀ c ∈ costsOf card model guide, ∀ σ,
      elboTermVal card (plateVars model guide np) (particle_var np)
          ⟨c.inputs, fun σ =>
            (sum_product card
              (guide.log_measures
                ++ (buildTargets (costsOf card model guide)).map Prod.snd)
              (plateVars model guide np)
              ((plateVars model guide np ∪ guide.measure_vars) \ c.inputs)).val σ
            - (sum_product card
              (guide.log_measures
                ++ (buildTargets (costsOf card model guide)).map Prod.snd)
              (plateVars model guide np)
              (plateVars model guide np ∪ guide.measure_vars)).val σ⟩ c σ
        = addReduce card (plateVars model guide np ∩ c.inputs) c.val σ := by
    intro c hc σ
    show addReduce card (plateVars model guide np ∩ c.inputs)
        (Integrate card _ c
          ((c.inputs \ plateVars model guide np) \ particle_var np)).val σ = _
    rw [hmv c hc]
    unfold addReduce
    refine sumAssign_congr card _ _ _ (fun τ => ?_) σ
    show (Integrate card _ c ∅).val τ = c.val τ
    show addReduce card (∅ : Finset Var) _ τ = c.val τ
    unfold addReduce
    rw [Finset.toList_empty]
    show Real.exp ((sum_product card
          (guide.log_measures
            ++ (buildTargets (costsOf card model guide)).map Prod.snd)
          (plateVars model guide np)
          ((plateVars model guide np ∪ guide.measure_vars) \ c.inputs)).val τ
        - (sum_product card
          (guide.log_measures
            ++ (buildTargets (costsOf card model guide)).map Prod.snd)
          (plateVars model guide np)
          (plateVars model guide np ∪ guide.measure_vars)).val τ)
        * c.val τ = c.val τ
    rw [hz c.inputs (hsig c hc) τ, hzE τ, sub_self, Real.exp_zero, one_mul]
  have hgnaive : ∀ σ, g σ =
      (model.log_factors.map (fun f =>
        addReduce card (plateVars model guide np ∩ f.inputs) f.val σ)).sum
      - (guide.log_factors.map (fun f =>
        addReduce card (plateVars model guide np ∩ f.inputs) f.val σ)).sum := by
    intro σ
    rw [hgv σ]
    have hmapeq : (costsOf card model guide).map (fun c =>
        elboTermVal card (plateVars model guide np) (particle_var np)
          ⟨c.inputs, fun σ =>
            (sum_product card
              (guide.log_measures
                ++ (buildTargets (costsOf card model guide)).map Prod.snd)
              (plateVars model guide np)
              ((plateVars model guide np ∪ guide.measure_vars) \ c.inputs)).val σ
            - (sum_product card
              (guide.log_measures
                ++ (buildTargets (costsOf card model guide)).map Prod.snd)
              (plateVars model guide np)
              (plateVars model guide np ∪ guide.measure_vars)).val σ⟩ c σ)
        = (costsOf card model guide).map (fun c =>
            addReduce card (plateVars model guide np ∩ c.inputs) c.val σ) :=
      List.map_congr_left (fun c hc => hterm c hc σ)
    rw [hmapeq, hcosts, List.map_append, List.sum_append, List.map_map]
    have hcomp : ((fun c : Factor =>
          addReduce card (plateVars model guide np ∩ c.inputs) c.val σ) ∘ negF)
        = fun f : Factor =>
            -(addReduce card (plateVars model guide np ∩ f.inputs) f.val σ) := by
      funext f
      show addReduce card (plateVars model guide np ∩ f.inputs)
          (fun τ => -(f.val τ)) σ = _
      unfold addReduce
      rw [sumAssign_neg]
    rw [hcomp]
    have hneg : (guide.log_factors.map (fun f : Factor =>
          -(addReduce card (plateVars model guide np ∩ f.inputs) f.val σ))).sum
        = -((guide.log_factors.map (fun f =>
            addReduce card (plateVars model guide np ∩ f.inputs) f.val σ)).sum) := by
      rw [show (fun f : Factor =>
          -(addReduce card (plateVars model guide np ∩ f.inputs) f.val σ))
            = (fun x : ℝ => -x) ∘ (fun f : Factor =>
                addReduce card (plateVars model guide np ∩ f.inputs) f.val σ)
          from rfl]
      rw [← List.map_map, list_sum_map_neg]
    rw [hneg, ← sub_eq_add_neg]
  have hdl : differentiable_loss card np (PlateNesting.finite n) model guide
      = Except.ok (-(meanReduce card (particle_var np) g baseAsg)) := by
    by_cases hnp : 1 < np <;>
      simp [differentiable_loss, particlePlateSetup, hnp, lossCore, hg]
  rw [hdl, naiveLoss]
  have hfin : meanReduce card (particle_var np) g baseAsg
      = meanReduce card (particle_var np)
        (fun σ =>
          (model.log_factors.map (fun f =>
            addReduce card (plateVars model guide np ∩ f.inputs) f.val σ)).sum
          - (guide.log_factors.map (fun f =>
            addReduce card (plateVars model guide np ∩ f.inputs) f.val σ)).sum)
        baseAsg := by
    unfold meanReduce
    rw [sumAssign_congr card _ _ _ (fun τ => hgnaive τ) baseAsg]
  rw [hfin]

/-- A model cost with no inputs and value 3. -/
noncomputable def mNull : Factor := ⟨∅, fun _ => 3⟩

/-- A guide cost with no inputs and value 1. -/
noncomputable def gNull : Factor := ⟨∅, fun _ => 1⟩

/-- A degenerate model bundle: one observed log factor and no latents. -/
noncomputable def model1 : TermBundle := ⟨[mNull], [], ∅, ∅, 1⟩

/-- A degenerate guide bundle: one log factor and no latents. -/
noncomputable def guide1 : TermBundle := ⟨[gNull], [], ∅, ∅, 1⟩

/-- C1 witness: on a concrete degenerate model/guide pair the loss equals the
naive estimator. -/
theorem C1_degenerate_equals_naive_witness :
    differentiable_loss card1 1 (PlateNesting.finite 0) model1 guide1
      = Except.ok (naiveLoss card1 1 model1 guide1) :=
  C1_degenerate_equals_naive card1 1 0 model1 guide1
    (by decide)
    rfl
    (by
      intro f hf
      rw [List.mem_singleton.mp hf]
      exact Finset.empty_subset _)
    (by
      intro f hf
      rw [List.mem_singleton.mp hf]
      exact Finset.empty_subset _)
    (by decide)
    (by
      intro σ
      unfold lseReduce
      rw [show guide1.measure_vars = (∅ : Finset Var) from rfl, Finset.toList_empty]
      show Real.log (Real.exp ((combine guide1.log_measures).val σ)) = 0
      rw [show (combine guide1.log_measures).val σ = 0 from rfl, Real.exp_zero,
        Real.log_one])
    (by decide)

end PyroFunsor
